import Mathlib

/-!
# Verification of the CDMA Walsh-code implementation

Shallow embedding of the numeric core of the repository
(`main.py` / `cdma_advanced.py`): Walsh/Hadamard code generation,
encoding, channel combination, correlation decoding, noise simulation
and orthogonality checking.

Matrices are `List (List ℤ)` (the Walsh matrix is an integer numpy
array); signals and data bits are `List ℚ` (exact rational arithmetic
stands in for Python floats — every quantity the claims touch is
dyadic-rational, so the float computations are exact and coincide with
the rational ones).  Fallible numpy operations (out-of-bounds indexing,
shape mismatch in elementwise products) are modelled with `Except`.
-/

namespace CDMA

/-- Runtime errors numpy/Python raises in the modelled code paths:
`indexError` for an out-of-bounds array index, `valueError` for an
elementwise operation on mismatched shapes. -/
inductive PyError where
  | indexError
  | valueError
  deriving DecidableEq, Repr

/-- Integer dot product `np.dot` of two equal-length vectors. -/
def dotZ (a b : List ℤ) : ℤ := (List.zipWith (· * ·) a b).sum

/-- Rational dot product: `np.sum(a * b)` for equal-length vectors. -/
def dotQ (a b : List ℚ) : ℚ := (List.zipWith (· * ·) a b).sum

/-- Cast an integer vector to a rational one (numpy promotes the integer
Walsh rows to floats when they meet float signals). -/
def qcast (r : List ℤ) : List ℚ := r.map Int.cast

/-- One Hadamard doubling step, `np.block([[W, W], [W, -W]])`
from `generate_walsh_codes`. -/
def walshStep (W : List (List ℤ)) : List (List ℤ) :=
  (W.map fun r => r ++ r) ++ (W.map fun r => r ++ r.map (fun x => -x))

/-- `CDMASystem.generate_walsh_codes` (`main.py` lines 27-40, identical in
`cdma_advanced.py` lines 28-33): start from `[[1]]` and apply the doubling
step once per loop iteration of `for i in range(order)`. -/
def generate_walsh_codes : ℕ → List (List ℤ)
  | 0 => [[1]]
  | n + 1 => walshStep (generate_walsh_codes n)

/-- `generate_walsh_codes` called with a (possibly negative) Python `int`
order: `range(order)` is empty for every `order ≤ 0`, so the loop body
runs `max(order, 0)` times.  The source contains no validation and no
`raise`. -/
def generate_walsh_codesZ (order : ℤ) : List (List ℤ) :=
  generate_walsh_codes order.toNat

/-- Row `i` of a matrix (total access; all uses are in-bounds). -/
def row (W : List (List ℤ)) (i : ℕ) : List ℤ := W.getD i []

/-- The matrix `W` is a `k × k` Hadamard matrix: `k` rows of length `k`,
row self-correlation `k` and distinct-row cross-correlation `0`. -/
def IsHadamard (W : List (List ℤ)) (k : ℕ) : Prop :=
  W.length = k ∧ (∀ r ∈ W, r.length = k) ∧
  ∀ i j, i < W.length → j < W.length →
    dotZ (row W i) (row W j) = if i = j then (k : ℤ) else 0

theorem row_length {W : List (List ℤ)} {k : ℕ} (hrow : ∀ r ∈ W, r.length = k)
    {i : ℕ} (hi : i < W.length) : (row W i).length = k := by
  unfold row
  rw [List.getD_eq_getElem _ _ hi]
  exact hrow _ (List.getElem_mem hi)

theorem dotZ_append {a b c d : List ℤ} (h : a.length = c.length) :
    dotZ (a ++ b) (c ++ d) = dotZ a c + dotZ b d := by
  unfold dotZ
  rw [List.zipWith_append _ _ _ _ _ h, List.sum_append]

theorem dotZ_comm (a b : List ℤ) : dotZ a b = dotZ b a := by
  unfold dotZ
  rw [List.zipWith_comm_of_comm]
  intro x y
  ring

theorem dotZ_map_neg (a b : List ℤ) :
    dotZ a (b.map fun x => -x) = -dotZ a b := by
  induction a generalizing b with
  | nil => simp [dotZ]
  | cons x xs ih =>
    cases b with
    | nil => simp [dotZ]
    | cons y ys =>
      simp only [dotZ, List.map_cons, List.zipWith_cons_cons, List.sum_cons] at *
      rw [ih]
      ring

theorem walshStep_length (W : List (List ℤ)) :
    (walshStep W).length = 2 * W.length := by
  simp [walshStep]; ring

/-- Row `m < n` of the doubled matrix is `row m ++ row m`. -/
theorem row_walshStep_lo {W : List (List ℤ)} {m : ℕ} (hm : m < W.length) :
    row (walshStep W) m = row W m ++ row W m := by
  unfold row walshStep
  rw [List.getD_append _ _ _ _ (by simpa using hm)]
  exact List.getD_map W [] (fun r => r ++ r)

/-- Row `n + m` (with `m < n`) of the doubled matrix is `row m ++ (-(row m))`. -/
theorem row_walshStep_hi {W : List (List ℤ)} {m : ℕ} (hm : m < W.length) :
    row (walshStep W) (W.length + m) =
      row W m ++ (row W m).map (fun x => -x) := by
  unfold row walshStep
  rw [List.getD_append_right _ _ _ _ (by simp)]
  have hidx : W.length + m - (List.map (fun r => r ++ r) W).length = m := by
    simp
  rw [hidx]
  exact List.getD_map W [] (fun r => r ++ r.map (fun x => -x))

theorem isHadamard_one : IsHadamard [[1]] 1 := by
  refine ⟨rfl, ?_, ?_⟩
  · intro r hr
    simp only [List.mem_singleton] at hr
    simp [hr]
  · intro i j hi hj
    simp only [List.length_singleton] at hi hj
    interval_cases i <;> interval_cases j <;> simp [dotZ, row]

theorem dotZ_map_neg_left (a b : List ℤ) :
    dotZ (a.map fun x => -x) b = -dotZ a b := by
  rw [dotZ_comm, dotZ_map_neg, dotZ_comm]

theorem isHadamard_step {W : List (List ℤ)} {k : ℕ} (h : IsHadamard W k) :
    IsHadamard (walshStep W) (2 * k) := by
  obtain ⟨hlen, hrow, hdot⟩ := h
  have hsl : (walshStep W).length = 2 * k := by rw [walshStep_length, hlen]
  refine ⟨hsl, ?_, ?_⟩
  · intro r hr
    simp only [walshStep, List.mem_append, List.mem_map] at hr
    rcases hr with ⟨s, hs, rfl⟩ | ⟨s, hs, rfl⟩ <;>
      simp [hrow s hs, two_mul]
  · intro i j hi hj
    have hi2 : i < 2 * W.length := by rwa [walshStep_length] at hi
    have hj2 : j < 2 * W.length := by rwa [walshStep_length] at hj
    by_cases hia : i < W.length <;> by_cases hja : j < W.length
    · -- both rows in the top half
      rw [row_walshStep_lo hia, row_walshStep_lo hja,
        dotZ_append (by rw [row_length hrow hia, row_length hrow hja]),
        hdot i j hia hja]
      by_cases hij : i = j <;> simp [hij] <;> push_cast <;> ring
    · -- i top half, j bottom half: blocks cancel
      have hj' : j - W.length < W.length := by omega
      have hjr : row (walshStep W) j =
          row W (j - W.length) ++ (row W (j - W.length)).map (fun x => -x) := by
        have hje : j = W.length + (j - W.length) := by omega
        conv_lhs => rw [hje]
        exact row_walshStep_hi hj'
      rw [row_walshStep_lo hia, hjr,
        dotZ_append (by rw [row_length hrow hia, row_length hrow hj']),
        dotZ_map_neg, hdot i (j - W.length) hia hj']
      have hij : i ≠ j := by omega
      simp [hij]
    · -- i bottom half, j top half: blocks cancel
      have hi' : i - W.length < W.length := by omega
      have hir : row (walshStep W) i =
          row W (i - W.length) ++ (row W (i - W.length)).map (fun x => -x) := by
        have hie : i = W.length + (i - W.length) := by omega
        conv_lhs => rw [hie]
        exact row_walshStep_hi hi'
      rw [hir, row_walshStep_lo hja,
        dotZ_append (by rw [row_length hrow hi', row_length hrow hja]),
        dotZ_map_neg_left, hdot (i - W.length) j hi' hja]
      have hij : i ≠ j := by omega
      simp [hij]
    · -- both rows in the bottom half
      have hi' : i - W.length < W.length := by omega
      have hj' : j - W.length < W.length := by omega
      have hir : row (walshStep W) i =
          row W (i - W.length) ++ (row W (i - W.length)).map (fun x => -x) := by
        have hie : i = W.length + (i - W.length) := by omega
        conv_lhs => rw [hie]
        exact row_walshStep_hi hi'
      have hjr : row (walshStep W) j =
          row W (j - W.length) ++ (row W (j - W.length)).map (fun x => -x) := by
        have hje : j = W.length + (j - W.length) := by omega
        conv_lhs => rw [hje]
        exact row_walshStep_hi hj'
      rw [hir, hjr,
        dotZ_append (by rw [row_length hrow hi', row_length hrow hj']),
        dotZ_map_neg, dotZ_map_neg_left,
        hdot (i - W.length) (j - W.length) hi' hj']
      have hij : i = j ↔ i - W.length = j - W.length := by omega
      by_cases hc : i = j
      · have h2 : i - W.length = j - W.length := hij.mp hc
        simp [hc, h2]
        push_cast
        ring
      · have h2 : i - W.length ≠ j - W.length := fun hx => hc (hij.mpr hx)
        simp [hc, h2]

/-! ## Encode / combine / decode pipeline (`main.py`, `cdma_advanced.py`) -/

/-- `CDMASystem.encode_signals` (`main.py` lines 63-77): iterates
`enumerate(data_bits)` and computes `self.walsh_matrix[i] * bit` for each.
There is no length validation: when `data_bits` is shorter than the matrix
the loop simply stops early; when it is longer, the indexing
`walsh_matrix[i]` raises `IndexError` at `i = len(walsh_matrix)`. -/
def encode_signals (walsh : List (List ℤ)) (data_bits : List ℚ) :
    Except PyError (List (List ℚ)) :=
  if data_bits.length ≤ walsh.length then
    .ok (List.zipWith (fun b r => (qcast r).map (fun x => x * b)) data_bits walsh)
  else .error .indexError

/-- Elementwise sum of two equal-length signals. -/
def vaddQ (a b : List ℚ) : List ℚ := List.zipWith (· + ·) a b

/-- `CDMASystem.combine_signals` (`main.py` lines 79-89):
`np.sum(encoded_signals, axis=0)`, the elementwise sum of the encoded
signals (all of one length in every reachable call). -/
def combine_signals (sigs : List (List ℚ)) : List ℚ :=
  match sigs with
  | [] => []
  | s :: rest => rest.foldl vaddQ s

/-- Python/numpy sequence indexing on a length-`n` axis: indices in
`[0, n)` are used directly, indices in `[-n, 0)` count from the end,
anything else raises `IndexError`. -/
def pyIndex (n : ℕ) (i : ℤ) : Option ℕ :=
  if 0 ≤ i ∧ i < (n : ℤ) then some i.toNat
  else if -(n : ℤ) ≤ i ∧ i < 0 then some (i + (n : ℤ)).toNat
  else none

/-- `CDMASystem.decode_signal` (`main.py` lines 108-122):
`station_code = walsh_matrix[station_index]` (numpy indexing, so negative
indices count from the end and anything out of `[-n, n)` raises
`IndexError`); then `inner_product = combined_signal * station_code`
(shape mismatch raises) and the result is
`np.sum(inner_product) / len(inner_product)`. -/
def decode_signal (walsh : List (List ℤ)) (combined_signal : List ℚ)
    (station_index : ℤ) : Except PyError ℚ :=
  match pyIndex walsh.length station_index with
  | none => .error .indexError
  | some k =>
    let station_code := qcast (walsh.getD k [])
    if combined_signal.length = station_code.length then
      let inner := List.zipWith (· * ·) combined_signal station_code
      .ok (inner.sum / (inner.length : ℚ))
    else .error .valueError

/-- The loop body of `AdvancedCDMASystem.batch_decode_all_stations`
unrolled over the rows it visits: for each row in order, correlate the
signal with the row and normalize by the product length, stopping at the
first shape error. -/
def decode_rows (combined_signal : List ℚ) :
    List (List ℤ) → Except PyError (List ℚ)
  | [] => .ok []
  | r :: rest =>
    let station_code := qcast r
    if combined_signal.length = station_code.length then
      let inner := List.zipWith (· * ·) combined_signal station_code
      match decode_rows combined_signal rest with
      | .ok ds => .ok ((inner.sum / (inner.length : ℚ)) :: ds)
      | .error e => .error e
    else .error .valueError

/-- `AdvancedCDMASystem.batch_decode_all_stations` (`cdma_advanced.py`
lines 88-104): `for i in range(self.num_stations)` decodes station `i`
exactly as `decode_signal` does.  In every constructed system
`num_stations = len(walsh_matrix)`, so the loop visits precisely the rows
of the matrix in ascending station order. -/
def batch_decode_all_stations (walsh : List (List ℤ))
    (combined_signal : List ℚ) : Except PyError (List ℚ) :=
  decode_rows combined_signal walsh

/-- `AdvancedCDMASystem.simulate_noise_effect` (`cdma_advanced.py` lines
74-86): returns `combined_signal + noise` elementwise, where
`noise = np.random.normal(0, noise_power, len(combined_signal))`.  The
Gaussian draw is external randomness; the deterministic parts modelled
here are the elementwise addition (this definition) and the parameters
the source passes to the sampler (`noise_mean_arg`, `noise_std_arg`). -/
def simulate_noise_effect (combined_signal noise : List ℚ) : List ℚ :=
  List.zipWith (· + ·) combined_signal noise

/-- The mean argument the source passes to `np.random.normal`: `0`. -/
def noise_mean_arg : ℚ := 0

/-- The scale argument the source passes to `np.random.normal`, whose
second parameter is the STANDARD DEVIATION of the Gaussian: the source
passes `noise_power` itself, unmodified. -/
def noise_std_arg (noise_power : ℚ) : ℚ := noise_power

/-- Modelled from the spec: spec §4.3 Contract B requires the Gaussian
standard deviation to be `sqrt(noisePower)`, i.e. a non-negative number
whose square is the noise power. -/
def spec_noise_std_ok (noise_power std : ℚ) : Prop :=
  0 ≤ std ∧ std ^ 2 = noise_power

/-- `AdvancedCDMASystem.check_orthogonality` (`cdma_advanced.py` lines
56-72): computes, for every pair of station indices, the dot product of
the corresponding Walsh-matrix rows (the cross-correlation matrix) and
prints it.  The function contains no `raise` and no assertion — it is a
total computation followed by printing, so it reports deviations from
orthogonality only as output and never as an exception. -/
def check_orthogonality (walsh : List (List ℤ)) : List (List ℤ) :=
  walsh.map (fun ri => walsh.map (fun rj => dotZ ri rj))

theorem generate_isHadamard (order : ℕ) :
    IsHadamard (generate_walsh_codes order) (2 ^ order) := by
  induction order with
  | zero => exact isHadamard_one
  | succ n ih =>
    have hs := isHadamard_step ih
    have h2 : 2 * 2 ^ n = 2 ^ (n + 1) := by ring
    rw [h2] at hs
    exact hs

/-! ## Algebra of the pipeline -/

theorem dotQ_vadd_left (a : List ℚ) : ∀ (b c : List ℚ),
    a.length = b.length →
    dotQ (vaddQ a b) c = dotQ a c + dotQ b c := by
  induction a with
  | nil =>
    intro b c h
    have hb : b = [] := List.eq_nil_of_length_eq_zero h.symm
    simp [hb, dotQ, vaddQ]
  | cons x xs ih =>
    intro b c h
    cases b with
    | nil => simp at h
    | cons y ys =>
      cases c with
      | nil => simp [dotQ, vaddQ]
      | cons z zs =>
        simp only [vaddQ, dotQ, List.zipWith_cons_cons, List.sum_cons] at *
        rw [ih ys zs (by simpa using h)]
        ring

theorem dotQ_smul_left (b : ℚ) (r : List ℚ) : ∀ (c : List ℚ),
    dotQ (r.map fun x => x * b) c = b * dotQ r c := by
  induction r with
  | nil => intro c; simp [dotQ]
  | cons x xs ih =>
    intro c
    cases c with
    | nil => simp [dotQ]
    | cons z zs =>
      simp only [dotQ, List.map_cons, List.zipWith_cons_cons,
        List.sum_cons] at *
      rw [ih zs]
      ring

/-- Casting an integer dot product to ℚ. -/
theorem dotQ_cast (r : List ℤ) : ∀ (s : List ℤ),
    dotQ (qcast r) (qcast s) = ((dotZ r s : ℤ) : ℚ) := by
  induction r with
  | nil => intro s; simp [dotQ, dotZ, qcast]
  | cons x xs ih =>
    intro s
    cases s with
    | nil => simp [dotQ, dotZ, qcast]
    | cons y ys =>
      have h := ih ys
      unfold dotQ dotZ qcast at h ⊢
      simp only [List.map_cons, List.zipWith_cons_cons, List.sum_cons]
      rw [h]
      push_cast
      ring

theorem dotQ_comm (a b : List ℚ) : dotQ a b = dotQ b a := by
  unfold dotQ
  rw [List.zipWith_comm_of_comm]
  intro x y
  ring

theorem vaddQ_length {a b : List ℚ} (h : a.length = b.length) :
    (vaddQ a b).length = a.length := by
  simp [vaddQ, h]

theorem foldl_vaddQ_length (rest : List (List ℚ)) : ∀ (s : List ℚ),
    (∀ x ∈ rest, x.length = s.length) →
    (rest.foldl vaddQ s).length = s.length := by
  induction rest with
  | nil => intro s _; rfl
  | cons x xs ih =>
    intro s h
    have hx : x.length = s.length := h x (List.mem_cons_self _ _)
    simp only [List.foldl_cons]
    rw [ih (vaddQ s x) ?_]
    · exact vaddQ_length hx.symm
    · intro y hy
      rw [vaddQ_length hx.symm]
      exact h y (List.mem_cons_of_mem _ hy)

theorem combine_signals_length (sigs : List (List ℚ)) (L : ℕ)
    (h : ∀ s ∈ sigs, s.length = L) (hne : sigs ≠ []) :
    (combine_signals sigs).length = L := by
  cases sigs with
  | nil => exact absurd rfl hne
  | cons s rest =>
    unfold combine_signals
    have hs : s.length = L := h s (List.mem_cons_self _ _)
    rw [foldl_vaddQ_length rest s ?_]
    · exact hs
    · intro x hx
      rw [hs]
      exact h x (List.mem_cons_of_mem _ hx)

theorem dotQ_foldl (rest : List (List ℚ)) : ∀ (s c : List ℚ),
    s.length = c.length → (∀ x ∈ rest, x.length = c.length) →
    dotQ (rest.foldl vaddQ s) c =
      dotQ s c + (rest.map (fun x => dotQ x c)).sum := by
  induction rest with
  | nil => intro s c _ _; simp
  | cons x xs ih =>
    intro s c hs h
    have hx : x.length = c.length := h x (List.mem_cons_self _ _)
    simp only [List.foldl_cons, List.map_cons, List.sum_cons]
    rw [ih (vaddQ s x) c ?_ ?_]
    · rw [dotQ_vadd_left s x c (by rw [hs, hx])]
      ring
    · rw [vaddQ_length (by rw [hs, hx])]
      exact hs
    · intro y hy
      exact h y (List.mem_cons_of_mem _ hy)

/-- Correlating a combined signal against a code distributes over the
superposition: the correlation of the sum is the sum of the
correlations. -/
theorem dotQ_combine (sigs : List (List ℚ)) (c : List ℚ)
    (h : ∀ s ∈ sigs, s.length = c.length) :
    dotQ (combine_signals sigs) c = (sigs.map (fun s => dotQ s c)).sum := by
  cases sigs with
  | nil => simp [combine_signals, dotQ]
  | cons s rest =>
    unfold combine_signals
    rw [dotQ_foldl rest s c (h s (List.mem_cons_self _ _))
      (fun x hx => h x (List.mem_cons_of_mem _ hx))]
    simp

/-- Sum of position-weighted terms where only position `k` contributes. -/
theorem sum_zipWith_zero (f : List ℤ → ℚ) : ∀ (bs : List ℚ)
    (rs : List (List ℤ)),
    (∀ i, i < rs.length → f (rs.getD i []) = 0) →
    (List.zipWith (fun b r => b * f r) bs rs).sum = 0 := by
  intro bs
  induction bs with
  | nil => intro rs _; simp
  | cons b bs0 ih =>
    intro rs hf
    cases rs with
    | nil => simp
    | cons r rs0 =>
      simp only [List.zipWith_cons_cons, List.sum_cons]
      rw [ih rs0 (fun i hi => hf (i + 1) (by simpa using hi))]
      have h0 := hf 0 (by simp)
      simp only [List.getD_cons_zero] at h0
      rw [h0]
      ring

theorem sum_zipWith_delta (f : List ℤ → ℚ) (N : ℚ) : ∀ (bits : List ℚ)
    (rows : List (List ℤ)) (k : ℕ),
    k < bits.length → bits.length = rows.length →
    (∀ i, i < rows.length → f (rows.getD i []) = if i = k then N else 0) →
    (List.zipWith (fun b r => b * f r) bits rows).sum =
      bits.getD k 0 * N := by
  intro bits
  induction bits with
  | nil => intro rows k hk _ _; simp at hk
  | cons b bs ih =>
    intro rows k hk hlen hf
    cases rows with
    | nil => simp at hlen
    | cons r rs =>
      simp only [List.zipWith_cons_cons, List.sum_cons]
      cases k with
      | zero =>
        have h0 := hf 0 (by simp)
        simp only [List.getD_cons_zero, if_pos rfl] at h0
        rw [h0, sum_zipWith_zero f bs rs ?_]
        · simp
        · intro i hi
          have := hf (i + 1) (by simpa using hi)
          simpa using this
      | succ k0 =>
        have h0 := hf 0 (by simp)
        rw [if_neg (by omega)] at h0
        simp only [List.getD_cons_zero] at h0
        rw [h0, ih rs k0 (by simpa using hk) (by simpa using hlen) ?_]
        · simp
        · intro i hi
          have := hf (i + 1) (by simpa using hi)
          simp only [List.getD_cons_succ] at this
          rw [this]
          by_cases hik : i = k0
          · simp [hik]
          · rw [if_neg (by omega), if_neg hik]

/-! ## Evaluation lemmas for decode -/

/-- When every visited row has the signal's length, the batch decode
succeeds and returns the per-row normalized correlations in order. -/
theorem decode_rows_ok (signal : List ℚ) : ∀ (rs : List (List ℤ)),
    (∀ r ∈ rs, r.length = signal.length) →
    decode_rows signal rs =
      Except.ok (rs.map (fun r =>
        (List.zipWith (· * ·) signal (qcast r)).sum /
          ((List.zipWith (· * ·) signal (qcast r)).length : ℚ))) := by
  intro rs
  induction rs with
  | nil => intro _; rfl
  | cons r rest ih =>
    intro h
    have hr : r.length = signal.length := h r (List.mem_cons_self _ _)
    unfold decode_rows
    rw [if_pos (by simp [hr, qcast]),
      ih (fun x hx => h x (List.mem_cons_of_mem _ hx))]
    simp

/-- Single-station decode at an in-range non-negative index evaluates to
the normalized correlation against that station's row. -/
theorem decode_signal_ok (walsh : List (List ℤ)) (signal : List ℚ)
    (i : ℕ) (hi : i < walsh.length)
    (hrl : (row walsh i).length = signal.length) :
    decode_signal walsh signal (i : ℤ) =
      Except.ok
        ((List.zipWith (· * ·) signal (qcast (row walsh i))).sum /
          ((List.zipWith (· * ·) signal
            (qcast (row walsh i))).length : ℚ)) := by
  unfold decode_signal
  have hp : pyIndex walsh.length (i : ℤ) = some i := by
    unfold pyIndex
    rw [if_pos (by omega)]
    simp
  unfold row at hrl ⊢
  simp only [hp]
  rw [if_pos (by simp [qcast, ← hrl])]

theorem getD_map_row (W : List (List ℤ)) (g : List ℤ → ℚ) (i : ℕ)
    (hi : i < W.length) :
    (W.map g).getD i 0 = g (row W i) := by
  rw [List.getD_eq_getElem _ _ (by simpa using hi), List.getElem_map]
  unfold row
  rw [List.getD_eq_getElem _ _ hi]

/-! ## Claim theorems -/

/-- C1: for every non-negative order, `generate_walsh_codes order` (the
recursive Hadamard doubling `[[W, W], [W, -W]]` from `[[1]]`) returns a
`2^order × 2^order` matrix in which every row's dot-product with itself
is `2^order` and every pair of distinct rows has dot-product exactly 0. -/
theorem generate_walsh_codes_orthogonal (order : ℕ) :
    (generate_walsh_codes order).length = 2 ^ order ∧
    (∀ r ∈ generate_walsh_codes order, r.length = 2 ^ order) ∧
    ∀ i j, i < 2 ^ order → j < 2 ^ order →
      dotZ (row (generate_walsh_codes order) i)
          (row (generate_walsh_codes order) j) =
        if i = j then (2 ^ order : ℤ) else 0 := by
  obtain ⟨h1, h2, h3⟩ := generate_isHadamard order
  refine ⟨h1, h2, fun i j hi hj => ?_⟩
  have h := h3 i j (by rwa [h1]) (by rwa [h1])
  rw [h]
  push_cast
  rfl

theorem generate_walsh_codes_orthogonal_witness :
    dotZ (row (generate_walsh_codes 2) 1) (row (generate_walsh_codes 2) 2)
      = 0 ∧
    dotZ (row (generate_walsh_codes 2) 3) (row (generate_walsh_codes 2) 3)
      = 4 := by
  constructor
  · have h := (generate_walsh_codes_orthogonal 2).2.2 1 2
      (by norm_num) (by norm_num)
    simpa using h
  · have h := (generate_walsh_codes_orthogonal 2).2.2 3 3
      (by norm_num) (by norm_num)
    simpa using h

/-- C4 counterexample: code generation does NOT fail on a negative order.
`generate_walsh_codes(-1)` runs the loop `for i in range(-1)` zero times
(the source contains no validation and no raise, so the embedding is a
total function with no error channel) and returns the matrix `[[1]]`. -/
theorem generate_neg_order_counterexample :
    generate_walsh_codesZ (-1) = [[1]] := rfl

/-- C4 amended: for every order ≤ 0 — negative orders included — code
generation succeeds and returns the 1×1 matrix `[[1]]`, because
`range(order)` is empty; in particular `order = 0` yields `[[1]]`. -/
theorem generate_nonpos_order (order : ℤ) (h : order ≤ 0) :
    generate_walsh_codesZ order = [[1]] := by
  unfold generate_walsh_codesZ
  rw [Int.toNat_of_nonpos h]
  rfl

theorem generate_nonpos_order_witness :
    generate_walsh_codesZ (-5) = [[1]] :=
  generate_nonpos_order (-5) (by norm_num)

/-- C6 counterexample: `decode_signal` does NOT fail at
`station_index = -1`: on the order-1 system with combined signal
`[1, 0]`, numpy negative indexing selects the last code row `[1, -1]`
and the decode succeeds, returning `1/2`. -/
theorem decode_signal_neg_one_counterexample :
    decode_signal (generate_walsh_codes 1) [1, 0] (-1) =
      Except.ok (1 / 2) := by
  have hW : generate_walsh_codes 1 = [[1, 1], [1, -1]] := rfl
  rw [hW]
  norm_num [decode_signal, pyIndex, List.getD, qcast]

/-- C6 amended: `decode_signal` raises `IndexError` exactly for station
indices ≥ StationCount or < −StationCount; in particular it fails at
`station_index = StationCount`, but a station index in `[-StationCount,
-1]` (such as −1) succeeds through Python negative indexing. -/
theorem decode_signal_out_of_range (walsh : List (List ℤ))
    (signal : List ℚ) (idx : ℤ)
    (h : (walsh.length : ℤ) ≤ idx ∨ idx < -(walsh.length : ℤ)) :
    decode_signal walsh signal idx = Except.error PyError.indexError := by
  unfold decode_signal pyIndex
  rw [if_neg (by omega), if_neg (by omega)]

theorem decode_signal_out_of_range_witness :
    decode_signal (generate_walsh_codes 1) [1, 0] 2 =
      Except.error PyError.indexError :=
  decode_signal_out_of_range (generate_walsh_codes 1) [1, 0] 2 (by decide)

/-- C7: the source passes `noise_power` itself as the scale (standard
deviation) argument of `np.random.normal`, so the added noise has
standard deviation `noise_power`, not `sqrt(noise_power)` as the spec's
Contract B states: at `noise_power = 4` the passed scale squares to 16,
not 4.  The no-op part of the claim does hold: adding the zero noise
vector (the only possible draw at scale 0) returns the signal
unchanged. -/
theorem noise_std_arg_not_sqrt :
    ¬ spec_noise_std_ok 4 (noise_std_arg 4) ∧
    noise_std_arg 0 = 0 ∧
    simulate_noise_effect [3, 5] [0, 0] = [3, 5] := by
  refine ⟨fun h => ?_, rfl, by norm_num [simulate_noise_effect]⟩
  unfold spec_noise_std_ok noise_std_arg at h
  norm_num at h

/-- C9: `check_orthogonality` computes the correlation matrix whose
entry `(i, j)` is the dot-product of code-matrix rows `i` and `j`.  It
is a total computation for EVERY input matrix — orthogonal or not — so a
deviation from the ideal is only ever reported in its output, never
raised as an exception. -/
theorem check_orthogonality_entries (walsh : List (List ℤ)) (i j : ℕ)
    (hi : i < walsh.length) (hj : j < walsh.length) :
    (check_orthogonality walsh).length = walsh.length ∧
    ((check_orthogonality walsh).getD i []).getD j 0 =
      dotZ (row walsh i) (row walsh j) := by
  constructor
  · simp [check_orthogonality]
  · have h1 : walsh[i]? = some (row walsh i) := by
      rw [List.getElem?_eq_getElem hi]
      unfold row
      rw [List.getD_eq_getElem _ _ hi]
    have h2 : walsh[j]? = some (row walsh j) := by
      rw [List.getElem?_eq_getElem hj]
      unfold row
      rw [List.getD_eq_getElem _ _ hj]
    simp only [check_orthogonality, List.getD_eq_getElem?_getD,
      List.getElem?_map, h1, h2, Option.map_some', Option.getD_some]

theorem check_orthogonality_entries_witness :
    (check_orthogonality [[1, 1], [1, 1]]).length = 2 ∧
    ((check_orthogonality [[1, 1], [1, 1]]).getD 0 []).getD 1 0 =
      dotZ (row [[1, 1], [1, 1]] 0) (row [[1, 1], [1, 1]] 1) :=
  check_orthogonality_entries [[1, 1], [1, 1]] 0 1 (by decide) (by decide)

/-- C10: for every station index in `[-StationCount, -1]`,
`decode_signal` does not fail: Python negative indexing makes it decode
station `StationCount + station_index`, so in particular decoding at −1
equals decoding station `StationCount − 1`. -/
theorem decode_signal_negative_index (walsh : List (List ℤ))
    (signal : List ℚ) (idx : ℤ)
    (h1 : -(walsh.length : ℤ) ≤ idx) (h2 : idx < 0) :
    decode_signal walsh signal idx =
      decode_signal walsh signal ((walsh.length : ℤ) + idx) := by
  unfold decode_signal
  have he : pyIndex walsh.length idx =
      some ((walsh.length : ℤ) + idx).toNat := by
    unfold pyIndex
    rw [if_neg (by omega), if_pos (by omega)]
    rw [Int.add_comm]
  have he2 : pyIndex walsh.length ((walsh.length : ℤ) + idx) =
      some ((walsh.length : ℤ) + idx).toNat := by
    unfold pyIndex
    rw [if_pos (by omega)]
  rw [he, he2]

theorem decode_signal_negative_index_witness :
    decode_signal (generate_walsh_codes 1) [1, 0] (-1) =
      decode_signal (generate_walsh_codes 1) [1, 0]
        (((generate_walsh_codes 1).length : ℤ) + (-1)) :=
  decode_signal_negative_index (generate_walsh_codes 1) [1, 0] (-1)
    (by decide) (by decide)

/-- C5 counterexample: `encode_signals` does NOT fail when `dataBits` is
shorter than the code matrix's row count: on the 2×2 order-1 matrix a
single data bit encodes successfully to one chip sequence — no
DimensionMismatch error exists in the source. -/
theorem encode_signals_short_counterexample :
    encode_signals (generate_walsh_codes 1) [1] = Except.ok [[1, 1]] := by
  have hW : generate_walsh_codes 1 = [[1, 1], [1, -1]] := rfl
  rw [hW]
  norm_num [encode_signals, qcast]

/-- C5 amended: `encode_signals` fails (with numpy's `IndexError`, not a
DimensionMismatch) only when `dataBits` is LONGER than the code matrix's
row count; when it is equal or shorter it succeeds and returns one chip
sequence per data bit in station order, the i-th being code row i scaled
elementwise by `dataBits[i]`. -/
theorem encode_signals_spec (walsh : List (List ℤ)) (bits : List ℚ) :
    (walsh.length < bits.length →
      encode_signals walsh bits = Except.error PyError.indexError) ∧
    (bits.length ≤ walsh.length →
      ∃ out, encode_signals walsh bits = Except.ok out ∧
        out.length = bits.length ∧
        ∀ i, i < bits.length →
          out.getD i [] =
            (qcast (row walsh i)).map (fun x => x * bits.getD i 0)) := by
  constructor
  · intro h
    unfold encode_signals
    rw [if_neg (by omega)]
  · intro h
    refine ⟨_, by unfold encode_signals; rw [if_pos h], ?_, ?_⟩
    · rw [List.length_zipWith]
      omega
    · intro i hi
      have hiw : i < walsh.length := lt_of_lt_of_le hi h
      set b := bits.getD i 0 with hbdef
      set r := row walsh i with hrdef
      have hb : bits[i]? = some b := by
        rw [List.getElem?_eq_getElem hi, hbdef, List.getD_eq_getElem _ _ hi]
      have hw : walsh[i]? = some r := by
        rw [List.getElem?_eq_getElem hiw, hrdef]
        unfold row
        rw [List.getD_eq_getElem _ _ hiw]
      simp only [List.getD_eq_getElem?_getD, List.getElem?_zipWith, hb, hw,
        Option.getD_some]

theorem encode_signals_spec_witness :
    ∃ out, encode_signals [[1, 1], [1, -1]] [2, 3] = Except.ok out ∧
      out.length = ([2, 3] : List ℚ).length ∧
      ∀ i, i < ([2, 3] : List ℚ).length →
        out.getD i [] =
          (qcast (row [[1, 1], [1, -1]] i)).map
            (fun x => x * ([2, 3] : List ℚ).getD i 0) :=
  (encode_signals_spec [[1, 1], [1, -1]] [2, 3]).2 (by norm_num)

theorem encode_zip_linear (b1 : List ℚ) : ∀ (b2 : List ℚ)
    (walsh : List (List ℤ)),
    List.zipWith (fun b r => (qcast r).map (fun x => x * b))
        (List.zipWith (· + ·) b1 b2) walsh =
      List.zipWith vaddQ
        (List.zipWith (fun b r => (qcast r).map (fun x => x * b)) b1 walsh)
        (List.zipWith (fun b r => (qcast r).map (fun x => x * b)) b2 walsh)
  := by
  induction b1 with
  | nil => intro b2 walsh; simp
  | cons x xs ih =>
    intro b2 walsh
    cases b2 with
    | nil => simp
    | cons y ys =>
      cases walsh with
      | nil => simp
      | cons r rs =>
        simp only [List.zipWith_cons_cons, ih]
        have hhead : vaddQ ((qcast r).map fun z => z * x)
            ((qcast r).map fun z => z * y) =
            (qcast r).map (fun z => z * (x + y)) := by
          unfold vaddQ
          rw [List.zipWith_map (· + ·) (fun z => z * x) (fun z => z * y),
            List.zipWith_same]
          exact List.map_congr_left fun a _ => by ring
        rw [hhead]

/-- C8: encode is linear in its bit argument: whenever `b1` and `b2` have
matching length and both encode successfully, the elementwise sum
`b1 + b2` encodes to the elementwise (chip-wise) sum of the two encoded
signal lists, exactly. -/
theorem encode_signals_linear (walsh : List (List ℤ)) (b1 b2 : List ℚ)
    (hlen : b1.length = b2.length) (e1 e2 : List (List ℚ))
    (h1 : encode_signals walsh b1 = Except.ok e1)
    (h2 : encode_signals walsh b2 = Except.ok e2) :
    encode_signals walsh (vaddQ b1 b2) =
      Except.ok (List.zipWith vaddQ e1 e2) := by
  unfold encode_signals at h1 h2 ⊢
  by_cases hb1 : b1.length ≤ walsh.length
  · rw [if_pos hb1] at h1
    rw [if_pos (by omega)] at h2
    have hv : (vaddQ b1 b2).length ≤ walsh.length := by
      unfold vaddQ
      rw [List.length_zipWith]
      omega
    rw [if_pos hv]
    obtain rfl := Except.ok.inj h1
    obtain rfl := Except.ok.inj h2
    have hz : vaddQ b1 b2 = List.zipWith (· + ·) b1 b2 := rfl
    rw [hz, encode_zip_linear b1 b2 walsh]
  · rw [if_neg hb1] at h1
    simp at h1

theorem encode_signals_linear_witness :
    encode_signals [[1, 1], [1, -1]] (vaddQ [1, 0] [0, 1]) =
      Except.ok (List.zipWith vaddQ [[1, 1], [0, 0]] [[0, 0], [1, -1]]) :=
  encode_signals_linear [[1, 1], [1, -1]] [1, 0] [0, 1] rfl
    [[1, 1], [0, 0]] [[0, 0], [1, -1]]
    (by norm_num [encode_signals, qcast])
    (by norm_num [encode_signals, qcast])

theorem enc_row_length (bits : List ℚ) : ∀ (W : List (List ℤ)) (L : ℕ),
    (∀ r ∈ W, r.length = L) →
    ∀ s ∈ List.zipWith (fun b r => (qcast r).map (fun x => x * b)) bits W,
      s.length = L := by
  induction bits with
  | nil => intro W L h s hs; simp at hs
  | cons b bs ih =>
    intro W L h s hs
    cases W with
    | nil => simp at hs
    | cons r rs =>
      simp only [List.zipWith_cons_cons, List.mem_cons] at hs
      rcases hs with rfl | hs
      · simp [qcast, h r (List.mem_cons_self _ _)]
      · exact ih rs L (fun x hx => h x (List.mem_cons_of_mem _ hx)) s hs

/-- C3: for every signal whose length is StationCount, the batch decode
succeeds, returns one decoded bit per station in ascending station
order, and its i-th entry equals the single-station decode of station i
(the sum of the elementwise product of the signal with code row i,
divided by StationCount). -/
theorem batch_decode_matches_single (order : ℕ) (signal : List ℚ)
    (hsig : signal.length = 2 ^ order) :
    ∃ bits,
      batch_decode_all_stations (generate_walsh_codes order) signal =
        Except.ok bits ∧
      bits.length = 2 ^ order ∧
      ∀ i : ℕ, i < 2 ^ order →
        decode_signal (generate_walsh_codes order) signal (i : ℤ) =
          Except.ok (bits.getD i 0) := by
  obtain ⟨hWlen, hWrow, _⟩ := generate_isHadamard order
  set W := generate_walsh_codes order with hWdef
  have hrows : ∀ r ∈ W, r.length = signal.length := by
    intro r hr
    rw [hWrow r hr, hsig]
  refine ⟨_, decode_rows_ok signal W hrows, ?_, ?_⟩
  · simp [hWlen]
  · intro i hi
    have hiW : i < W.length := by rw [hWlen]; exact hi
    rw [decode_signal_ok W signal i hiW
      (by rw [row_length hWrow hiW, hsig]), getD_map_row W _ i hiW]

theorem batch_decode_matches_single_witness :
    ∃ bits,
      batch_decode_all_stations (generate_walsh_codes 1) [1, 1] =
        Except.ok bits ∧
      bits.length = 2 ^ 1 ∧
      ∀ i : ℕ, i < 2 ^ 1 →
        decode_signal (generate_walsh_codes 1) [1, 1] (i : ℤ) =
          Except.ok (bits.getD i 0) :=
  batch_decode_matches_single 1 [1, 1] (by norm_num)

/-- C2: zero-noise round trip.  For every order and every data vector of
length `2^order` with entries in {0, 1}, encoding all stations, summing
the chip sequences on the channel and batch-decoding recovers every bit
within 1e-9 (in fact exactly: the decoded list equals the data list). -/
theorem encode_combine_decode_roundtrip (order : ℕ) (bits : List ℚ)
    (hlen : bits.length = 2 ^ order)
    (hbin : ∀ b ∈ bits, b = 0 ∨ b = 1) :
    ∃ enc dec,
      encode_signals (generate_walsh_codes order) bits = Except.ok enc ∧
      batch_decode_all_stations (generate_walsh_codes order)
          (combine_signals enc) = Except.ok dec ∧
      dec.length = 2 ^ order ∧
      ∀ i, i < 2 ^ order →
        |dec.getD i 0 - bits.getD i 0| ≤ 1 / 1000000000 := by
  obtain ⟨hWlen, hWrow, hWdot⟩ := generate_isHadamard order
  set W := generate_walsh_codes order with hWdef
  have hN0 : 0 < 2 ^ order := by positivity
  have hble : bits.length ≤ W.length := by rw [hWlen, hlen]
  set enc := List.zipWith (fun b r => (qcast r).map (fun x => x * b)) bits W
    with hencdef
  have henc : encode_signals W bits = Except.ok enc := by
    unfold encode_signals
    rw [if_pos hble, hencdef]
  have hennel : ∀ s ∈ enc, s.length = 2 ^ order := by
    rw [hencdef]
    exact enc_row_length bits W (2 ^ order) hWrow
  have hencne : enc ≠ [] := by
    rw [hencdef]
    intro hc
    rcases List.zipWith_eq_nil_iff.mp hc with h | h
    · rw [h] at hlen
      simp at hlen
      omega
    · rw [h] at hWlen
      simp at hWlen
      omega
  set combined := combine_signals enc with hcombdef
  have hcomblen : combined.length = 2 ^ order :=
    combine_signals_length enc (2 ^ order) hennel hencne
  have hbatch : batch_decode_all_stations W combined =
      Except.ok (W.map (fun r =>
        (List.zipWith (· * ·) combined (qcast r)).sum /
          ((List.zipWith (· * ·) combined (qcast r)).length : ℚ))) :=
    decode_rows_ok combined W (fun r hr => by rw [hWrow r hr, hcomblen])
  refine ⟨enc, _, henc, hbatch, by simp [hWlen], ?_⟩
  intro i hi
  have hiW : i < W.length := by rw [hWlen]; exact hi
  have hcr : (qcast (row W i)).length = 2 ^ order := by
    rw [qcast, List.length_map, row_length hWrow hiW]
  have hinlen :
      (List.zipWith (· * ·) combined (qcast (row W i))).length = 2 ^ order := by
    rw [List.length_zipWith, hcomblen, hcr, min_self]
  have hcorr : (List.zipWith (· * ·) combined (qcast (row W i))).sum =
      bits.getD i 0 * ((2 ^ order : ℕ) : ℚ) := by
    have h1 : (List.zipWith (· * ·) combined (qcast (row W i))).sum =
        dotQ combined (qcast (row W i)) := rfl
    rw [h1, hcombdef, dotQ_combine enc (qcast (row W i))
      (fun s hs => by rw [hennel s hs, hcr])]
    rw [hencdef, List.map_zipWith]
    have hfun : (fun (b : ℚ) (r : List ℤ) =>
        dotQ ((qcast r).map (fun x => x * b)) (qcast (row W i))) =
        (fun b r => b * dotQ (qcast r) (qcast (row W i))) := by
      funext b r
      exact dotQ_smul_left b (qcast r) (qcast (row W i))
    rw [hfun]
    refine sum_zipWith_delta (fun r => dotQ (qcast r) (qcast (row W i)))
      ((2 ^ order : ℕ) : ℚ) bits W i (by rw [hlen]; exact hi)
      (by rw [hlen, hWlen]) ?_
    intro j hj
    show dotQ (qcast (row W j)) (qcast (row W i)) = _
    rw [dotQ_cast (row W j) (row W i), hWdot j i hj hiW]
    by_cases hji : j = i
    · rw [if_pos hji, if_pos hji]
      push_cast
      ring
    · rw [if_neg hji, if_neg hji]
      norm_num
  have hgd : (W.map (fun r =>
      (List.zipWith (· * ·) combined (qcast r)).sum /
        ((List.zipWith (· * ·) combined (qcast r)).length : ℚ))).getD i 0 =
      (List.zipWith (· * ·) combined (qcast (row W i))).sum /
        ((List.zipWith (· * ·) combined (qcast (row W i))).length : ℚ) :=
    getD_map_row W _ i hiW
  rw [hgd, hcorr, hinlen]
  have hNQ : ((2 ^ order : ℕ) : ℚ) ≠ 0 := by positivity
  rw [mul_div_assoc, div_self hNQ, mul_one, sub_self, abs_zero]
  norm_num

theorem encode_combine_decode_roundtrip_witness :
    ∃ enc dec,
      encode_signals (generate_walsh_codes 1) [1, 0] = Except.ok enc ∧
      batch_decode_all_stations (generate_walsh_codes 1)
          (combine_signals enc) = Except.ok dec ∧
      dec.length = 2 ^ 1 ∧
      ∀ i, i < 2 ^ 1 →
        |dec.getD i 0 - ([1, 0] : List ℚ).getD i 0| ≤ 1 / 1000000000 :=
  encode_combine_decode_roundtrip 1 [1, 0] (by norm_num)
    (by intro b hb; fin_cases hb <;> norm_num)

end CDMA
